import Mathlib

/-!
Verification development for the mow.cli spec-string compiler-and-matcher
pipeline.  The repository source available here is the package documentation
(src/doc.go); the parser, automaton and matcher bodies themselves are not in
src/, so the executable definitions below are modelled from the specification
text (spec.md sections 3, 4, 6 and the doc.go examples), as faithfully as its
words allow.  Machine behaviour is embedded shallowly: the spec string is
lexed and parsed into a SpecNode AST, matching is a depth-first backtracking
search returning the list of all (remaining-tokens, binding) outcomes in
search order, and option tokens are decoded (folding, attached values) by a
pre-pass that is independent of automaton position, exactly as section 4.3
describes.
-/

/-- Value kind of an option or argument (boolean | string | integer), §3. -/
inductive VKind
  | boolean
  | str
  | int
  deriving DecidableEq, Repr

/-- Modelled from the spec: OptionSpec (§3) — canonical name, single-letter
short names, multi-letter long names, value kind, repeatable flag.  Defaults
and env-var fallbacks belong to the excluded Binder stage and are omitted. -/
structure OptionSpec where
  name : String
  shorts : List Char
  longs : List String
  kind : VKind
  repeatable : Bool
  deriving DecidableEq, Repr

/-- Modelled from the spec: ArgumentSpec (§3) — name, value kind, repeatable. -/
structure ArgumentSpec where
  name : String
  kind : VKind
  repeatable : Bool
  deriving DecidableEq, Repr

/-- Modelled from the spec: Container (§3) — owned options, ordered arguments,
optional explicit spec string (else one is auto-derived). -/
structure Container where
  opts : List OptionSpec
  args : List ArgumentSpec
  specStr : Option String
  deriving DecidableEq, Repr

/-- Modelled from the spec: MatchToken (§3) — an argv element decoded into an
option occurrence (with its decoded value) or a positional candidate. -/
inductive Tok
  | opt (name : String) (val : String)
  | pos (s : String)
  deriving DecidableEq, Repr

/-- Binding of a match: (canonical name, decoded value) pairs in consumption
order (§3, §4.4). -/
abbrev Binding := List (String × String)

/-- Values accumulated for one declared name, in consumption order. -/
def vals (name : String) (b : Binding) : List String :=
  (b.filter (fun p => p.1 = name)).map (fun p => p.2)

/-- Look up a declared option by one of its short (single-letter) names. -/
def findShort (os : List OptionSpec) (ch : Char) : Option OptionSpec :=
  os.find? (fun o => o.shorts.contains ch)

/-- Look up a declared option by one of its long names. -/
def findLong (os : List OptionSpec) (s : String) : Option OptionSpec :=
  os.find? (fun o => o.longs.contains s)

/-- Split a character list at the first '=' (attached-value syntax). -/
def splitEq : List Char → List Char × Option (List Char)
  | [] => ([], none)
  | '=' :: rest => ([], some rest)
  | c :: rest =>
    let p := splitEq rest
    (c :: p.1, p.2)

/-- Modelled from the spec: folding of a single-dash short-option cluster
(§4.3): one short option per letter unless the option takes a value, in which
case the remaining letters are the attached value (an '=' before them is also
accepted) or, if none remain, the next argv token will be consumed as the
value (reported as a pending option name). -/
def foldCluster (os : List OptionSpec) : List Char → Option (List Tok × Option String)
  | [] => some ([], none)
  | ch :: more =>
    match findShort os ch with
    | none => none
    | some o =>
      if o.kind = VKind.boolean then
        (foldCluster os more).map (fun p => (Tok.opt o.name "true" :: p.1, p.2))
      else
        match more with
        | [] => some ([], some o.name)
        | '=' :: v => some ([Tok.opt o.name (String.mk v)], none)
        | v => some ([Tok.opt o.name (String.mk v)], none)

/-- Result of decoding one argv element: unknown-option error, a list of
decoded tokens, or decoded tokens followed by an option still needing its
value from the next argv element. -/
inductive ClassifyRes
  | err
  | toks (ts : List Tok)
  | needsVal (pre : List Tok) (name : String)
  deriving DecidableEq, Repr

/-- Modelled from the spec: decoding of one argv element independent of
automaton position (§4.3): a leading "--" introduces a long option optionally
followed by "=value"; a leading single "-" introduces a folded short-option
cluster; anything else is a positional candidate. -/
def classify (os : List OptionSpec) (t : String) : ClassifyRes :=
  match t.data with
  | '-' :: '-' :: c :: cs =>
    let p := splitEq (c :: cs)
    match findLong os (String.mk p.1) with
    | none => ClassifyRes.err
    | some o =>
      match p.2 with
      | some v => ClassifyRes.toks [Tok.opt o.name (String.mk v)]
      | none =>
        if o.kind = VKind.boolean then ClassifyRes.toks [Tok.opt o.name "true"]
        else ClassifyRes.needsVal [] o.name
  | '-' :: c :: cs =>
    match foldCluster os (c :: cs) with
    | none => ClassifyRes.err
    | some (ts, none) => ClassifyRes.toks ts
    | some (ts, some nm) => ClassifyRes.needsVal ts nm
  | _ => ClassifyRes.toks [Tok.pos t]

/-- Modelled from the spec: the option-decoding pre-pass over argv (§4.3).
`pending` carries an option name whose value is the next argv element.
Returns none on an unknown option or a missing option value (match-time
invocation errors). -/
def normGo (os : List OptionSpec) (pending : Option String) : List String → Option (List Tok)
  | [] =>
    match pending with
    | none => some []
    | some _ => none
  | t :: rest =>
    match pending with
    | some name => (normGo os none rest).map (fun l => Tok.opt name t :: l)
    | none =>
      match classify os t with
      | ClassifyRes.err => none
      | ClassifyRes.toks ts => (normGo os none rest).map (fun l => ts ++ l)
      | ClassifyRes.needsVal ts name => (normGo os (some name) rest).map (fun l => ts ++ l)

/-- Decode a whole argument vector into match tokens. -/
def decodeArgv (os : List OptionSpec) (argv : List String) : Option (List Tok) :=
  normGo os none argv

/-- Modelled from the spec: SpecNode AST (§3).  Sequence and Choice lists are
encoded right-nested with binary constructors (`empty` is the empty sequence);
`alt` keeps the left alternative first, matching the left-to-right transition
order of §4.3. -/
inductive SpecNode
  | optRef (name : String)
  | argRef (name : String)
  | empty
  | seq (a b : SpecNode)
  | alt (a b : SpecNode)
  | opt (n : SpecNode)
  | rep (n : SpecNode)
  deriving DecidableEq, Repr

/-- Lexical tokens of the spec-string language (§4.1 grammar). -/
inductive SpecTok
  | lparen
  | rparen
  | lbrack
  | rbrack
  | pipe
  | ellipsis
  | dash (cs : List Char)
  | ddash (s : String)
  | word (s : String)
  | allopts
  deriving DecidableEq, Repr

/-- Characters allowed after the first letter of a long option name. -/
def isLongChar (c : Char) : Bool := c.isAlphanum

/-- Characters of an UPPERCASE_WORD argument reference (§6.1). -/
def isWordChar (c : Char) : Bool := c.isUpper || c.isDigit || c = '_'

/-- Modelled from the spec: lexer of the spec-string language (§4.1): spaces
separate tokens; "[OPTIONS]" is a reserved literal; '(' ')' '[' ']' '|' and
"..." are punctuation; "-x..." is a short-option cluster, "--x..." a long
option, and an uppercase word an argument reference.  Fueled; every step
consumes at least one character, so fuel = length + 1 always suffices. -/
def lexGo : Nat → List Char → Option (List SpecTok)
  | 0, _ => none
  | _ + 1, [] => some []
  | f + 1, ' ' :: cs => lexGo f cs
  | f + 1, '(' :: cs => (lexGo f cs).map (SpecTok.lparen :: ·)
  | f + 1, ')' :: cs => (lexGo f cs).map (SpecTok.rparen :: ·)
  | f + 1, '[' :: 'O' :: 'P' :: 'T' :: 'I' :: 'O' :: 'N' :: 'S' :: ']' :: cs =>
    (lexGo f cs).map (SpecTok.allopts :: ·)
  | f + 1, '[' :: cs => (lexGo f cs).map (SpecTok.lbrack :: ·)
  | f + 1, ']' :: cs => (lexGo f cs).map (SpecTok.rbrack :: ·)
  | f + 1, '|' :: cs => (lexGo f cs).map (SpecTok.pipe :: ·)
  | f + 1, '.' :: '.' :: '.' :: cs => (lexGo f cs).map (SpecTok.ellipsis :: ·)
  | f + 1, '-' :: '-' :: cs =>
    let p := cs.span isLongChar
    if p.1 = [] then none
    else (lexGo f p.2).map (SpecTok.ddash (String.mk p.1) :: ·)
  | f + 1, '-' :: cs =>
    let p := cs.span Char.isAlpha
    if p.1 = [] then none
    else (lexGo f p.2).map (SpecTok.dash p.1 :: ·)
  | f + 1, c :: cs =>
    if c.isUpper then
      let p := (c :: cs).span isWordChar
      (lexGo f p.2).map (SpecTok.word (String.mk p.1) :: ·)
    else none

/-- Lex a spec string. -/
def lexSpec (s : String) : Option (List SpecTok) :=
  lexGo (s.data.length + 1) s.data

/-- Right-nested sequence of a node list; a singleton collapses to its
element and the empty list to `empty`. -/
def mkSeq : List SpecNode → SpecNode
  | [] => SpecNode.empty
  | [n] => n
  | n :: ns => SpecNode.seq n (mkSeq ns)

/-- Right-nested choice of a node list; a singleton collapses to its
element. -/
def mkChoice : List SpecNode → SpecNode
  | [] => SpecNode.empty
  | [n] => n
  | n :: ns => SpecNode.alt n (mkChoice ns)

/-- Resolve every letter of an option-group shortcut "-abcd" (§4.1 optSeq)
against the declared options. -/
def lookShorts (os : List OptionSpec) : List Char → Option (List SpecNode)
  | [] => some []
  | ch :: more =>
    match findShort os ch with
    | none => none
    | some o => (lookShorts os more).map (SpecNode.optRef o.name :: ·)

/-- Apply a trailing "..." repetition marker to a freshly parsed atom
(§4.1 rep), returning the parser-result shape (singleton node list). -/
def repWrap (n : SpecNode) : List SpecTok → List SpecNode × List SpecTok
  | SpecTok.ellipsis :: r => ([SpecNode.rep n], r)
  | r => ([n], r)

/-- The four entry points of the recursive-descent spec parser (§4.1):
an atom, the ('|' atom)* tail of a choice, a choice, and a choice* sequence
list (which stops before a closing bracket). -/
inductive PMode
  | atom
  | alts
  | choice
  | seqList
  deriving DecidableEq, Repr

/-- Modelled from the spec: recursive-descent spec parser (§4.1 grammar plus
the argument production usable in atom position, as in the doc's choice
example "-t | DST").  Every referenced option or argument name is resolved
against the Container at parse time; an undeclared name is a
configuration-time failure (none).  `allopts` desugars to
Repeated(Optional(Choice(all declared options))) (§4.1 semantics).
Fueled; parsing consumes at least one token every three nested calls. -/
def parseP : Nat → PMode → Container → List SpecTok → Option (List SpecNode × List SpecTok)
  | 0, _, _, _ => none
  | f + 1, PMode.atom, c, toks =>
    match toks with
    | SpecTok.dash cs :: r =>
      (lookShorts c.opts cs).map (fun l => repWrap (mkChoice l) r)
    | SpecTok.ddash s :: r =>
      match findLong c.opts s with
      | none => none
      | some o => some (repWrap (SpecNode.optRef o.name) r)
    | SpecTok.word w :: r =>
      match c.args.find? (fun a => a.name = w) with
      | none => none
      | some a => some (repWrap (SpecNode.argRef a.name) r)
    | SpecTok.allopts :: r =>
      if c.opts.isEmpty then none
      else
        some (repWrap
          (SpecNode.rep (SpecNode.opt
            (mkChoice (c.opts.map (fun o => SpecNode.optRef o.name))))) r)
    | SpecTok.lparen :: r =>
      match parseP f PMode.seqList c r with
      | some (n :: ns, SpecTok.rparen :: r') => some (repWrap (mkSeq (n :: ns)) r')
      | _ => none
    | SpecTok.lbrack :: r =>
      match parseP f PMode.seqList c r with
      | some (n :: ns, SpecTok.rbrack :: r') =>
        some (repWrap (SpecNode.opt (mkSeq (n :: ns))) r')
      | _ => none
    | _ => none
  | f + 1, PMode.alts, c, toks =>
    match toks with
    | SpecTok.pipe :: r =>
      match parseP f PMode.atom c r with
      | some ([a], r') =>
        match parseP f PMode.alts c r' with
        | some (as, r'') => some (a :: as, r'')
        | none => none
      | _ => none
    | _ => some ([], toks)
  | f + 1, PMode.choice, c, toks =>
    match parseP f PMode.atom c toks with
    | some ([a], r) =>
      match parseP f PMode.alts c r with
      | some (as, r') => some ([mkChoice (a :: as)], r')
      | none => none
    | _ => none
  | f + 1, PMode.seqList, c, toks =>
    match toks with
    | [] => some ([], [])
    | SpecTok.rparen :: _ => some ([], toks)
    | SpecTok.rbrack :: _ => some ([], toks)
    | _ =>
      match parseP f PMode.choice c toks with
      | some ([n], r) =>
        match parseP f PMode.seqList c r with
        | some (ns, r') => some (n :: ns, r')
        | none => none
      | _ => none

/-- Parse a complete spec string for a Container; leftover tokens (for
example an unbalanced closing bracket) are a configuration-time syntax
error. -/
def parseSpecStr (c : Container) (s : String) : Option SpecNode :=
  match lexSpec s with
  | none => none
  | some toks =>
    match parseP (4 * toks.length + 8) PMode.seqList c toks with
    | some (ns, []) => some (mkSeq ns)
    | _ => none

/-- Modelled from the spec: auto-derived spec string (§3, doc "Default
spec"): start empty, append "[OPTIONS]" if at least one option is declared,
then append every declared argument name in declaration order. -/
def defaultSpec (c : Container) : String :=
  c.args.foldl (fun s a => if s = "" then a.name else s ++ " " ++ a.name)
    (if c.opts.isEmpty then "" else "[OPTIONS]")

/-- The spec string in effect for a Container: the explicit one, else the
auto-derived one. -/
def effectiveSpec (c : Container) : String :=
  c.specStr.getD (defaultSpec c)

/-- Compile a Container's effective spec string (configuration time). -/
def compileSpec (c : Container) : Option SpecNode :=
  parseSpecStr c (effectiveSpec c)

/-- Every option/argument reference in a node is declared on the Container
(§3 invariant). -/
def refsOk (c : Container) : SpecNode → Bool
  | SpecNode.optRef s => c.opts.any (fun o => o.name = s)
  | SpecNode.argRef s => c.args.any (fun a => a.name = s)
  | SpecNode.empty => true
  | SpecNode.seq a b => refsOk c a && refsOk c b
  | SpecNode.alt a b => refsOk c a && refsOk c b
  | SpecNode.opt n => refsOk c n
  | SpecNode.rep n => refsOk c n

/-- Modelled from the spec: the backtracking matcher (§4.2-§4.3), as the
depth-first list of all (remaining tokens, binding) outcomes in search
order.  Transition order is the order edges were added during compilation:
the left alternative of a choice first, an optional's normal path before its
bypass (the bypass is tried last), and a repetition's repeat-edge before its
exit-edge (greedy), where the repeat-edge can only be retaken after at least
one token was consumed (§5).  Fueled structurally; `mfuel` below bounds the
fuel actually needed. -/
def mtch : Nat → SpecNode → List Tok → Binding → List (List Tok × Binding)
  | 0, _, _, _ => []
  | f + 1, n, toks, b =>
    match n with
    | SpecNode.optRef name =>
      match toks with
      | Tok.opt nm v :: rest => if nm = name then [(rest, b ++ [(name, v)])] else []
      | _ => []
    | SpecNode.argRef name =>
      match toks with
      | Tok.pos s :: rest => [(rest, b ++ [(name, s)])]
      | _ => []
    | SpecNode.empty => [(toks, b)]
    | SpecNode.seq x y =>
      (mtch f x toks b).flatMap (fun p => mtch f y p.1 p.2)
    | SpecNode.alt x y => mtch f x toks b ++ mtch f y toks b
    | SpecNode.opt x => mtch f x toks b ++ [(toks, b)]
    | SpecNode.rep x =>
      (mtch f x toks b).flatMap (fun p =>
        (if p.1.length < toks.length then mtch f (SpecNode.rep x) p.1 p.2 else [])
          ++ [p])

/-- Fuel bound for the repetition loop: with at most L tokens left, the
repeat-edge can be retaken at most L times. -/
def repFuel (g : Nat → Nat) : Nat → Nat
  | 0 => 1 + g 0
  | l + 1 => 1 + max (g (l + 1)) (repFuel g l)

/-- Fuel sufficient for `mtch` on a node with a given number of input
tokens: one step per constructor, and one full pass of the body per possible
repetition of a repeat node. -/
def mfuel : SpecNode → Nat → Nat
  | SpecNode.optRef _ => fun _ => 1
  | SpecNode.argRef _ => fun _ => 1
  | SpecNode.empty => fun _ => 1
  | SpecNode.seq x y => fun l => 1 + max (mfuel x l) (mfuel y l)
  | SpecNode.alt x y => fun l => 1 + max (mfuel x l) (mfuel y l)
  | SpecNode.opt x => fun l => 1 + mfuel x l
  | SpecNode.rep x => repFuel (mfuel x)

/-- The complete backtracking search for a node over a token vector: `mtch`
run with its sufficient fuel. -/
def matchSearch (n : SpecNode) (toks : List Tok) (b : Binding) : List (List Tok × Binding) :=
  mtch (mfuel n toks.length) n toks b

/-- Modelled from the spec: a Container-level match ends successfully when an
accepting state is reached with no leftover tokens (no sub-commands here, so
leftover tokens fail the path and the search backtracks, §4.3): the first
outcome of the depth-first search that consumed the whole vector. -/
def matchToks (n : SpecNode) (toks : List Tok) : Option Binding :=
  ((matchSearch n toks []).find? (fun p => p.1.isEmpty)).map (fun p => p.2)

/-- Failure classes of §7: configuration errors surface at compile time,
invocation (match-time) errors while matching one argument vector. -/
inductive RunErr
  | configErr
  | matchErr
  deriving DecidableEq, Repr

deriving instance DecidableEq for Except

/-- Modelled from the spec: the per-invocation pipeline (§2 control flow):
compile the effective spec (configuration time), decode argv, run the
backtracking match starting from a fresh empty Binding. -/
def runContainer (c : Container) (argv : List String) : Except RunErr Binding :=
  match compileSpec c with
  | none => Except.error RunErr.configErr
  | some n =>
    match decodeArgv c.opts argv with
    | none => Except.error RunErr.matchErr
    | some toks =>
      match matchToks n toks with
      | none => Except.error RunErr.matchErr
      | some b => Except.ok b

/-- Matching a given node over a raw argv under declared options (used to
compare invocation syntaxes independently of the compile stage). -/
def runSpecNode (os : List OptionSpec) (n : SpecNode) (argv : List String) : Option Binding :=
  match decodeArgv os argv with
  | none => none
  | some toks => matchToks n toks

/-- Destination slots of a Container: current value sequence per name. -/
abbrev Dests := List (String × List String)

/-- Overwrite-or-append one decoded value into the destination store:
repeatable destinations append, scalar destinations overwrite (§4.4). -/
def applyOne (c : Container) (d : Dests) (name v : String) : Dests :=
  let repeatable := c.opts.any (fun o => o.name = name && o.repeatable)
    || c.args.any (fun a => a.name = name && a.repeatable)
  match d.find? (fun p => p.1 = name) with
  | none => d ++ [(name, [v])]
  | some _ =>
    d.map (fun p =>
      if p.1 = name then (p.1, if repeatable then p.2 ++ [v] else [v]) else p)

/-- Modelled from the spec: the Binder (§4.4) applies a successful match's
assignments to the destinations in consumption order. -/
def applyBinding (c : Container) (b : Binding) (d : Dests) : Dests :=
  b.foldl (fun d p => applyOne c d p.1 p.2) d

/-- Modelled from the spec: one invocation against caller-visible destination
slots (§7): only a successful match's Binding is applied; a failed match
leaves every destination slot untouched. -/
def invoke (c : Container) (argv : List String) (d : Dests) : Dests × Except RunErr Unit :=
  match runContainer c argv with
  | Except.ok b => (applyBinding c b d, Except.ok ())
  | Except.error e => (d, Except.error e)

/-! Concrete containers used by the testable properties (§8 and doc.go
examples). -/

/-- The cp container: repeatable positional SRC, scalar positional DST,
spec "SRC... DST". -/
def cpC : Container :=
  ⟨[], [⟨"SRC", VKind.str, true⟩, ⟨"DST", VKind.str, false⟩], some "SRC... DST"⟩

/-- A container declaring a string option with short name e and long name
extra, spec "-e". -/
def extraC : Container :=
  ⟨[⟨"e", ['e'], ["extra"], VKind.str, false⟩], [], some "-e"⟩

/-- Exactly the four boolean options a, b, c, d. -/
def abcdOpts : List OptionSpec :=
  [⟨"a", ['a'], [], VKind.boolean, false⟩, ⟨"b", ['b'], [], VKind.boolean, false⟩,
   ⟨"c", ['c'], [], VKind.boolean, false⟩, ⟨"d", ['d'], [], VKind.boolean, false⟩]

/-- Options a, b, c, d with no explicit spec (auto-derived "[OPTIONS]"). -/
def abcdAutoC : Container := ⟨abcdOpts, [], none⟩

/-- Options a, b, c, d with the explicit spec "[-a|-b|-c|-d]...". -/
def abcdExplicitC : Container := ⟨abcdOpts, [], some "[-a|-b|-c|-d]..."⟩

/-- A repeatable string option e with spec "(-e)...". -/
def envC : Container := ⟨[⟨"e", ['e'], [], VKind.str, true⟩], [], some "(-e)..."⟩

/-- Boolean short options i and t and no other options. -/
def itOpts : List OptionSpec :=
  [⟨"i", ['i'], [], VKind.boolean, false⟩, ⟨"t", ['t'], [], VKind.boolean, false⟩]

/-- A container declaring i and t with a caller-chosen spec string. -/
def itC (s : Option String) : Container := ⟨itOpts, [], s⟩

/-- Boolean option t and positional DST, spec "-t | DST" (the doc's choice
example mixing an option and an argument). -/
def tdstC : Container :=
  ⟨[⟨"t", ['t'], [], VKind.boolean, false⟩], [⟨"DST", VKind.str, false⟩], some "-t | DST"⟩

/-- The docker-run container of the doc's Default-spec example: options d
and m, scalar argument IMAGE, repeatable argument ARG, no explicit spec. -/
def dockerRunC : Container :=
  ⟨[⟨"d", ['d'], ["detach"], VKind.boolean, false⟩,
    ⟨"m", ['m'], ["memory"], VKind.str, false⟩],
   [⟨"IMAGE", VKind.str, false⟩, ⟨"ARG", VKind.str, true⟩], none⟩

/-- A container whose spec references the undeclared option f. -/
def undeclC : Container := ⟨[], [], some "-f"⟩

/-- C1: the cp test — with spec "SRC... DST", matching [a, b, c] succeeds
and binds SRC to the sequence [a, b] and DST to c: the greedy repetition
backtracks exactly enough to satisfy the mandatory trailing element, so the
match neither fails nor leaves DST unbound. -/
theorem cp_test_backtracks :
    runContainer cpC ["a", "b", "c"] = Except.ok [("SRC", "a"), ("SRC", "b"), ("DST", "c")]
    ∧ (runContainer cpC ["a", "b", "c"]).map (vals "SRC") = Except.ok ["a", "b"]
    ∧ (runContainer cpC ["a", "b", "c"]).map (vals "DST") = Except.ok ["c"] := by
  refine ⟨by decide, by decide, by decide⟩

/-- The desugaring of [OPTIONS] for options a, b, c, d:
Repeated(Optional(Choice(all declared options))). -/
def allOptsNode : SpecNode :=
  SpecNode.rep (SpecNode.opt
    (SpecNode.alt (SpecNode.optRef "a")
      (SpecNode.alt (SpecNode.optRef "b")
        (SpecNode.alt (SpecNode.optRef "c") (SpecNode.optRef "d")))))

/-- C2: for a Container declaring exactly the options a, b, c, d and no
explicit spec, the auto-derived spec (which is "[OPTIONS]") and the explicit
spec "[-a|-b|-c|-d]..." compile to the same node —
Repeated(Optional(Choice(all declared options))) — and therefore accept
exactly the same set of input token sequences, with the same outcome. -/
theorem allopts_equivalence :
    (compileSpec abcdAutoC = some allOptsNode
      ∧ compileSpec abcdExplicitC = some allOptsNode)
    ∧ ∀ argv : List String, runContainer abcdAutoC argv = runContainer abcdExplicitC argv := by
  refine ⟨⟨by decide, by decide⟩, ?_⟩
  intro argv
  have h1 : compileSpec abcdAutoC = some allOptsNode := by decide
  have h2 : compileSpec abcdExplicitC = some allOptsNode := by decide
  simp only [runContainer, h1, h2]
  rfl

/-- C3: for the string option -e (long name --extra), the five invocation syntaxes
-e=val, -e val, -eval, --extra=val and --extra val all succeed and bind the
option's destination to the same string "val". -/
theorem attached_value_syntaxes :
    runContainer extraC ["-e=val"] = Except.ok [("e", "val")]
    ∧ runContainer extraC ["-e", "val"] = Except.ok [("e", "val")]
    ∧ runContainer extraC ["-eval"] = Except.ok [("e", "val")]
    ∧ runContainer extraC ["--extra=val"] = Except.ok [("e", "val")]
    ∧ runContainer extraC ["--extra", "val"] = Except.ok [("e", "val")] := by
  refine ⟨by decide, by decide, by decide, by decide, by decide⟩

/-- C6: with e declared as a repeatable string option and spec "(-e)...",
the input -e PATH:/bin -e PATH:/usr/bin binds e to the sequence
["PATH:/bin", "PATH:/usr/bin"] in consumption order. -/
theorem repeated_option_accumulation :
    runContainer envC ["-e", "PATH:/bin", "-e", "PATH:/usr/bin"]
      = Except.ok [("e", "PATH:/bin"), ("e", "PATH:/usr/bin")]
    ∧ (runContainer envC ["-e", "PATH:/bin", "-e", "PATH:/usr/bin"]).map (vals "e")
      = Except.ok ["PATH:/bin", "PATH:/usr/bin"] := by
  refine ⟨by decide, by decide⟩

/-- C9: the spec parser accepts a declared positional argument reference in
atom position — "-t | DST" parses to a Choice between the option t and the
argument DST — and the compiled spec matches either an option or a
positional token. -/
theorem argument_in_atom_position :
    compileSpec tdstC = some (SpecNode.alt (SpecNode.optRef "t") (SpecNode.argRef "DST"))
    ∧ runContainer tdstC ["x"] = Except.ok [("DST", "x")]
    ∧ runContainer tdstC ["-t"] = Except.ok [("t", "true")] := by
  refine ⟨by decide, by decide, by decide⟩

/-- C10: the auto-derived spec appends each declared argument by bare name
with no repetition marker even when the argument is repeatable: the
docker-run container gets "[OPTIONS] IMAGE ARG" (not "[OPTIONS] IMAGE
ARG..."), so its automaton accepts exactly one token for ARG. -/
theorem default_spec_ignores_repeatable :
    effectiveSpec dockerRunC = "[OPTIONS] IMAGE ARG"
    ∧ runContainer dockerRunC ["img", "a1"] = Except.ok [("IMAGE", "img"), ("ARG", "a1")]
    ∧ runContainer dockerRunC ["img", "a1", "a2"] = Except.error RunErr.matchErr
    ∧ runContainer dockerRunC ["img"] = Except.error RunErr.matchErr := by
  refine ⟨by decide, by decide, by decide, by decide⟩

/-- Decoding "-it" under the declared booleans i and t folds into the i and
t option tokens followed by the decoding of the rest of argv. -/
theorem decode_it_cons (rest : List String) :
    decodeArgv itOpts ("-it" :: rest)
      = (decodeArgv itOpts rest).map
          (fun l => [Tok.opt "i" "true", Tok.opt "t" "true"] ++ l) := by
  have hc : classify itOpts "-it"
      = ClassifyRes.toks [Tok.opt "i" "true", Tok.opt "t" "true"] := by decide
  simp only [decodeArgv, normGo, hc]

/-- Decoding "-i" "-t" produces the same two option tokens in front of the
decoding of the rest of argv. -/
theorem decode_i_t_cons (rest : List String) :
    decodeArgv itOpts ("-i" :: "-t" :: rest)
      = (decodeArgv itOpts rest).map
          (fun l => [Tok.opt "i" "true", Tok.opt "t" "true"] ++ l) := by
  have hi : classify itOpts "-i" = ClassifyRes.toks [Tok.opt "i" "true"] := by decide
  have ht : classify itOpts "-t" = ClassifyRes.toks [Tok.opt "t" "true"] := by decide
  simp only [decodeArgv, normGo, hi, ht, Option.map_map]
  cases normGo itOpts none rest <;> rfl

/-- C4: for a Container declaring the boolean short options i and t and no
other options, matching the folded token -it is equivalent to matching the
two tokens -i -t — the decoded token vectors are equal, and for every spec
string the whole match succeeds or fails together with identical Bindings. -/
theorem option_folding_equivalence (s : Option String) (rest : List String) :
    decodeArgv itOpts ("-it" :: rest) = decodeArgv itOpts ("-i" :: "-t" :: rest)
    ∧ runContainer (itC s) ("-it" :: rest) = runContainer (itC s) ("-i" :: "-t" :: rest) := by
  have hd : decodeArgv itOpts ("-it" :: rest) = decodeArgv itOpts ("-i" :: "-t" :: rest) := by
    rw [decode_it_cons, decode_i_t_cons]
  refine ⟨hd, ?_⟩
  simp only [runContainer]
  cases compileSpec (itC s) with
  | none => rfl
  | some n =>
    have ho : (itC s).opts = itOpts := rfl
    simp only [ho, hd]

/-- Closed instance of the folding equivalence at the spec "[OPTIONS]" and
the two-token input, exercising both conjuncts. -/
theorem option_folding_equivalence_witness :
    decodeArgv itOpts ["-it"] = decodeArgv itOpts ["-i", "-t"]
    ∧ runContainer (itC (some "[OPTIONS]")) ["-it"]
        = runContainer (itC (some "[OPTIONS]")) ["-i", "-t"] :=
  option_folding_equivalence (some "[OPTIONS]") []

/-- C7: a failed match mutates no destination slots — for every Container,
argument vector and destination store, when matching fails the invocation
returns the destination store exactly as it was given, with the failure. -/
theorem failure_atomicity (c : Container) (argv : List String) (d : Dests) (e : RunErr)
    (h : runContainer c argv = Except.error e) :
    invoke c argv d = (d, Except.error e) := by
  simp only [invoke, h]

/-- Closed instance of failure atomicity: the "-e" container given no
arguments fails at match time and leaves a pre-populated destination store
untouched. -/
theorem failure_atomicity_witness :
    invoke extraC [] [("e", ["old"])] = ([("e", ["old"])], Except.error RunErr.matchErr) :=
  failure_atomicity extraC [] [("e", ["old"])] RunErr.matchErr (by decide)

/-- An option found by short-name lookup is declared (its canonical name
occurs among the Container's options). -/
theorem declOpt_of_findShort (c : Container) (ch : Char) (o : OptionSpec)
    (h : findShort c.opts ch = some o) : c.opts.any (fun x => x.name = o.name) = true := by
  have hm : o ∈ c.opts := List.mem_of_find?_eq_some h
  exact List.any_eq_true.mpr ⟨o, hm, by simp⟩

/-- An option found by long-name lookup is declared. -/
theorem declOpt_of_findLong (c : Container) (s : String) (o : OptionSpec)
    (h : findLong c.opts s = some o) : c.opts.any (fun x => x.name = o.name) = true := by
  have hm : o ∈ c.opts := List.mem_of_find?_eq_some h
  exact List.any_eq_true.mpr ⟨o, hm, by simp⟩

/-- An argument found by name lookup is declared. -/
theorem declArg_of_find (c : Container) (w : String) (a : ArgumentSpec)
    (h : c.args.find? (fun x => x.name = w) = some a) :
    c.args.any (fun x => x.name = a.name) = true := by
  have hm : a ∈ c.args := List.mem_of_find?_eq_some h
  exact List.any_eq_true.mpr ⟨a, hm, by simp⟩

/-- A right-nested choice of nodes with declared references has declared
references. -/
theorem refsOk_mkChoice (c : Container) :
    ∀ l : List SpecNode, (∀ n ∈ l, refsOk c n = true) → refsOk c (mkChoice l) = true
  | [], _ => rfl
  | [n], h => by simpa [mkChoice] using h n (by simp)
  | n :: m :: ns, h => by
    have h1 : refsOk c n = true := h n (by simp)
    have h2 : refsOk c (mkChoice (m :: ns)) = true :=
      refsOk_mkChoice c (m :: ns) (fun x hx => h x (by simp [hx]))
    simp [mkChoice, refsOk, h1, h2]

/-- A right-nested sequence of nodes with declared references has declared
references. -/
theorem refsOk_mkSeq (c : Container) :
    ∀ l : List SpecNode, (∀ n ∈ l, refsOk c n = true) → refsOk c (mkSeq l) = true
  | [], _ => rfl
  | [n], h => by simpa [mkSeq] using h n (by simp)
  | n :: m :: ns, h => by
    have h1 : refsOk c n = true := h n (by simp)
    have h2 : refsOk c (mkSeq (m :: ns)) = true :=
      refsOk_mkSeq c (m :: ns) (fun x hx => h x (by simp [hx]))
    simp [mkSeq, refsOk, h1, h2]

/-- The nodes resolved from an option-group shortcut are all declared
option references. -/
theorem lookShorts_refs (c : Container) :
    ∀ cs l, lookShorts c.opts cs = some l → ∀ n ∈ l, refsOk c n = true := by
  intro cs
  induction cs with
  | nil => intro l h n hn; simp [lookShorts] at h; subst h; simp at hn
  | cons ch more ihm =>
    intro l h n hn
    simp only [lookShorts] at h
    cases hf : findShort c.opts ch with
    | none => rw [hf] at h; simp at h
    | some o =>
      rw [hf] at h
      cases hl : lookShorts c.opts more with
      | none => rw [hl] at h; simp at h
      | some l' =>
        rw [hl] at h
        simp only [Option.map_some] at h
        cases h
        rcases List.mem_cons.mp hn with hn | hn
        · subst hn; simpa [refsOk] using declOpt_of_findShort c ch o hf
        · exact ihm l' hl n hn

/-- Applying a trailing repetition marker preserves declaredness of
references. -/
theorem repWrap_refs (c : Container) (n : SpecNode) (r : List SpecTok)
    (h : refsOk c n = true) : ∀ m ∈ (repWrap n r).1, refsOk c m = true := by
  intro m hm
  unfold repWrap at hm
  split at hm <;> simp at hm <;> subst hm <;> simpa [refsOk]

/-- Every node list produced by the spec parser has all of its option and
argument references resolved against the Container's declarations: the
resolution happens at reference-parse time, so an undeclared name can never
reach the compiled automaton. -/
theorem parseP_refs :
    ∀ f mode c toks ns r, parseP f mode c toks = some (ns, r) →
      ∀ n ∈ ns, refsOk c n = true := by
  intro f
  induction f with
  | zero => intro mode c toks ns r h; simp [parseP] at h
  | succ f ih =>
    intro mode c toks ns r h
    cases mode with
    | atom =>
      simp only [parseP] at h
      split at h
      · rename_i cs r0
        cases hl : lookShorts c.opts cs with
        | none => rw [hl] at h; simp at h
        | some l =>
          rw [hl] at h
          simp only [Option.map_some', Option.some.injEq] at h
          have hrefs := repWrap_refs c (mkChoice l) r0
            (refsOk_mkChoice c l (lookShorts_refs c cs l hl))
          rw [h] at hrefs
          exact hrefs
      · rename_i s r0
        cases hf : findLong c.opts s with
        | none => rw [hf] at h; simp at h
        | some o =>
          rw [hf] at h
          simp only [Option.some.injEq] at h
          have hrefs := repWrap_refs c (SpecNode.optRef o.name) r0
            (by simpa [refsOk] using declOpt_of_findLong c s o hf)
          rw [h] at hrefs
          exact hrefs
      · rename_i w r0
        cases hf : c.args.find? (fun a => a.name = w) with
        | none => rw [hf] at h; simp at h
        | some a =>
          rw [hf] at h
          simp only [Option.some.injEq] at h
          have hrefs := repWrap_refs c (SpecNode.argRef a.name) r0
            (by simpa [refsOk] using declArg_of_find c w a hf)
          rw [h] at hrefs
          exact hrefs
      · rename_i r0
        split at h
        · simp at h
        · simp only [Option.some.injEq] at h
          have hall : ∀ m ∈ c.opts.map (fun x => SpecNode.optRef x.name), refsOk c m = true := by
            intro m hm
            rcases List.mem_map.mp hm with ⟨x, hx, rfl⟩
            have hx2 : c.opts.any (fun o => o.name = x.name) = true :=
              List.any_eq_true.mpr ⟨x, hx, by simp⟩
            simpa [refsOk] using hx2
          have hrefs := repWrap_refs c
            (SpecNode.rep (SpecNode.opt
              (mkChoice (c.opts.map (fun o => SpecNode.optRef o.name))))) r0
            (by simpa [refsOk] using refsOk_mkChoice c _ hall)
          rw [h] at hrefs
          exact hrefs
      · rename_i r0
        split at h
        case _ n1 ns1 r1 heq =>
          simp only [Option.some.injEq] at h
          have hs := ih PMode.seqList c r0 (n1 :: ns1) (SpecTok.rparen :: r1) heq
          have hrefs := repWrap_refs c (mkSeq (n1 :: ns1)) r1 (refsOk_mkSeq c _ hs)
          rw [h] at hrefs
          exact hrefs
        case _ => simp at h
      · rename_i r0
        split at h
        case _ n1 ns1 r1 heq =>
          simp only [Option.some.injEq] at h
          have hs := ih PMode.seqList c r0 (n1 :: ns1) (SpecTok.rbrack :: r1) heq
          have hrefs := repWrap_refs c (SpecNode.opt (mkSeq (n1 :: ns1))) r1
            (by simpa [refsOk] using refsOk_mkSeq c _ hs)
          rw [h] at hrefs
          exact hrefs
        case _ => simp at h
      · simp at h
    | alts =>
      simp only [parseP] at h
      split at h
      · rename_i r0
        split at h
        case _ a r' heq =>
          split at h
          case _ as r'' heq2 =>
            simp only [Option.some.injEq, Prod.mk.injEq] at h
            obtain ⟨h1, h2⟩ := h
            subst h1
            intro n hn
            rcases List.mem_cons.mp hn with rfl | hn
            · exact ih PMode.atom c r0 [n] r' heq n (by simp)
            · exact ih PMode.alts c r' as r'' heq2 n hn
          case _ => simp at h
        case _ => simp at h
      · simp only [Option.some.injEq, Prod.mk.injEq] at h
        obtain ⟨h1, h2⟩ := h
        subst h1
        intro n hn
        simp at hn
    | choice =>
      simp only [parseP] at h
      split at h
      case _ a r0 heq =>
        split at h
        case _ as r' heq2 =>
          simp only [Option.some.injEq, Prod.mk.injEq] at h
          obtain ⟨h1, h2⟩ := h
          subst h1
          intro n hn
          simp only [List.mem_singleton] at hn
          subst hn
          apply refsOk_mkChoice
          intro m hm
          rcases List.mem_cons.mp hm with rfl | hm
          · exact ih PMode.atom c toks [m] r0 heq m (by simp)
          · exact ih PMode.alts c r0 as r' heq2 m hm
        case _ => simp at h
      case _ => simp at h
    | seqList =>
      simp only [parseP] at h
      split at h
      · simp only [Option.some.injEq, Prod.mk.injEq] at h
        obtain ⟨h1, h2⟩ := h
        subst h1
        intro n hn
        simp at hn
      · simp only [Option.some.injEq, Prod.mk.injEq] at h
        obtain ⟨h1, h2⟩ := h
        subst h1
        intro n hn
        simp at hn
      · simp only [Option.some.injEq, Prod.mk.injEq] at h
        obtain ⟨h1, h2⟩ := h
        subst h1
        intro n hn
        simp at hn
      · split at h
        case _ n1 r0 heq =>
          split at h
          case _ ns1 r1 heq2 =>
            simp only [Option.some.injEq, Prod.mk.injEq] at h
            obtain ⟨h1, h2⟩ := h
            subst h1
            intro n hn
            rcases List.mem_cons.mp hn with rfl | hn
            · exact ih PMode.choice c toks [n] r0 heq n (by simp)
            · exact ih PMode.seqList c r0 ns1 r1 heq2 n hn
          case _ => simp at h
        case _ => simp at h

/-- A successfully compiled spec only contains references declared on its
Container. -/
theorem compileSpec_refs (c : Container) (n : SpecNode) (h : compileSpec c = some n) :
    refsOk c n = true := by
  unfold compileSpec parseSpecStr at h
  split at h
  · simp at h
  · rename_i toks heq
    split at h
    · rename_i ns heq2
      simp only [Option.some.injEq] at h
      subst h
      exact refsOk_mkSeq c ns (parseP_refs _ PMode.seqList c toks ns [] heq2)
    · simp at h

/-- C5: a spec string referencing an undeclared option or argument fails at
configuration (compile) time: a compiled automaton only carries transitions
labeled with declared specs (every reference in the compiled node is
declared), and when compilation fails, every argument vector yields the
configuration-time failure, never a match-time one. -/
theorem undeclared_ref_is_config_time (c : Container) :
    (∀ n, compileSpec c = some n → refsOk c n = true)
    ∧ (compileSpec c = none →
        ∀ argv : List String, runContainer c argv = Except.error RunErr.configErr) := by
  constructor
  · intro n h
    exact compileSpec_refs c n h
  · intro h argv
    simp [runContainer, h]

/-- Closed instance: the compiled cp spec has only declared references, and
the container whose spec names the undeclared option f fails with the
configuration error on an arbitrary invocation. -/
theorem undeclared_ref_is_config_time_witness :
    refsOk cpC (SpecNode.seq (SpecNode.rep (SpecNode.argRef "SRC")) (SpecNode.argRef "DST")) = true
    ∧ runContainer undeclC ["x"] = Except.error RunErr.configErr :=
  ⟨(undeclared_ref_is_config_time cpC).1 _ (by decide),
   (undeclared_ref_is_config_time undeclC).2 (by decide) ["x"]⟩

/-- Pointwise-equal continuations give equal depth-first result lists. -/
theorem flatMap_ext {α β : Type} (l : List α) (f g : α → List β)
    (h : ∀ a ∈ l, f a = g a) : l.flatMap f = l.flatMap g := by
  induction l with
  | nil => rfl
  | cons a l ih =>
    simp only [List.flatMap_cons]
    rw [h a (by simp), ih (fun x hx => h x (by simp [hx]))]

/-- One-step unfolding of the matcher at an option reference. -/
theorem mtch_optRef (f : Nat) (name : String) (toks : List Tok) (b : Binding) :
    mtch (f + 1) (SpecNode.optRef name) toks b
      = match toks with
        | Tok.opt nm v :: rest => if nm = name then [(rest, b ++ [(name, v)])] else []
        | _ => [] := rfl

/-- One-step unfolding of the matcher at an argument reference. -/
theorem mtch_argRef (f : Nat) (name : String) (toks : List Tok) (b : Binding) :
    mtch (f + 1) (SpecNode.argRef name) toks b
      = match toks with
        | Tok.pos s :: rest => [(rest, b ++ [(name, s)])]
        | _ => [] := rfl

/-- One-step unfolding of the matcher at the empty sequence. -/
theorem mtch_empty (f : Nat) (toks : List Tok) (b : Binding) :
    mtch (f + 1) SpecNode.empty toks b = [(toks, b)] := rfl

/-- One-step unfolding of the matcher at a sequence node. -/
theorem mtch_seq (f : Nat) (x y : SpecNode) (toks : List Tok) (b : Binding) :
    mtch (f + 1) (SpecNode.seq x y) toks b
      = (mtch f x toks b).flatMap (fun p => mtch f y p.1 p.2) := rfl

/-- One-step unfolding of the matcher at a choice node. -/
theorem mtch_alt (f : Nat) (x y : SpecNode) (toks : List Tok) (b : Binding) :
    mtch (f + 1) (SpecNode.alt x y) toks b
      = mtch f x toks b ++ mtch f y toks b := rfl

/-- One-step unfolding of the matcher at an optional node. -/
theorem mtch_opt (f : Nat) (x : SpecNode) (toks : List Tok) (b : Binding) :
    mtch (f + 1) (SpecNode.opt x) toks b
      = mtch f x toks b ++ [(toks, b)] := rfl

/-- One-step unfolding of the matcher at a repetition node. -/
theorem mtch_rep (f : Nat) (x : SpecNode) (toks : List Tok) (b : Binding) :
    mtch (f + 1) (SpecNode.rep x) toks b
      = (mtch f x toks b).flatMap (fun p =>
          (if p.1.length < toks.length then mtch f (SpecNode.rep x) p.1 p.2 else [])
            ++ [p]) := rfl

/-- The matcher only ever consumes tokens: every outcome's remaining vector
is no longer than the input vector, so the search space of (state,
token-index) pairs is finite. -/
theorem mtch_len :
    ∀ f n toks b p, p ∈ mtch f n toks b → p.1.length ≤ toks.length := by
  intro f
  induction f with
  | zero => intro n toks b p hp; simp [mtch] at hp
  | succ f ih =>
    intro n toks b p hp
    cases n with
    | optRef name =>
      rw [mtch_optRef] at hp
      rcases toks with _ | ⟨t, rest⟩
      · simp at hp
      · cases t with
        | opt nm v =>
          by_cases hnm : nm = name
          · simp [hnm] at hp
            subst hp
            simp
          · simp [hnm] at hp
        | pos s => simp at hp
    | argRef name =>
      rw [mtch_argRef] at hp
      rcases toks with _ | ⟨t, rest⟩
      · simp at hp
      · cases t with
        | opt nm v => simp at hp
        | pos s =>
          simp at hp
          subst hp
          simp
    | empty =>
      rw [mtch_empty] at hp
      simp at hp
      subst hp
      exact le_rfl
    | seq x y =>
      rw [mtch_seq] at hp
      rcases List.mem_flatMap.mp hp with ⟨q, hq, hpq⟩
      exact le_trans (ih y q.1 q.2 p hpq) (ih x toks b q hq)
    | alt x y =>
      rw [mtch_alt] at hp
      rcases List.mem_append.mp hp with hp | hp
      · exact ih x toks b p hp
      · exact ih y toks b p hp
    | opt x =>
      rw [mtch_opt] at hp
      rcases List.mem_append.mp hp with hp | hp
      · exact ih x toks b p hp
      · simp at hp
        subst hp
        exact le_rfl
    | rep x =>
      rw [mtch_rep] at hp
      rcases List.mem_flatMap.mp hp with ⟨q, hq, hpq⟩
      have hqlen := ih x toks b q hq
      rcases List.mem_append.mp hpq with hpq | hpq
      · by_cases hlt : q.1.length < toks.length
        · rw [if_pos hlt] at hpq
          exact le_trans (ih (SpecNode.rep x) q.1 q.2 p hpq) (le_of_lt hlt)
        · rw [if_neg hlt] at hpq
          simp at hpq
      · simp at hpq
        rw [hpq]
        exact hqlen

/-- The fuel bound is always positive. -/
theorem mfuel_pos : ∀ (n : SpecNode) (l : Nat), 1 ≤ mfuel n l := by
  intro n
  induction n with
  | optRef name => intro l; simp [mfuel]
  | argRef name => intro l; simp [mfuel]
  | empty => intro l; simp [mfuel]
  | seq x y ihx ihy => intro l; simp [mfuel]
  | alt x y ihx ihy => intro l; simp [mfuel]
  | opt x ihx => intro l; simp [mfuel]
  | rep x ihx =>
    intro l
    cases l <;> simp [mfuel, repFuel]

/-- The repetition bound dominates one pass of its body. -/
theorem repFuel_ge_body (g : Nat → Nat) (l : Nat) : 1 + g l ≤ repFuel g l := by
  cases l with
  | zero => simp [repFuel]
  | succ l =>
    have := Nat.le_max_left (g (l + 1)) (repFuel g l)
    simp [repFuel]

/-- The repetition bound dominates the bound for one fewer token. -/
theorem repFuel_ge_prev (g : Nat → Nat) (l : Nat) : 1 + repFuel g l ≤ repFuel g (l + 1) := by
  have := Nat.le_max_right (g (l + 1)) (repFuel g l)
  simp only [repFuel]
  omega

/-- Giving the matcher one unit of fuel beyond the bound changes nothing:
the step case of bounded termination of the backtracking search. -/
theorem mtch_step (n : SpecNode) :
    ∀ ll toks b f, (toks : List Tok).length ≤ ll → mfuel n ll ≤ f →
      mtch (f + 1) n toks b = mtch f n toks b := by
  induction n with
  | optRef name =>
    intro ll toks b f _ hf
    obtain ⟨f', rfl⟩ : ∃ f', f = f' + 1 :=
      ⟨f - 1, by have := mfuel_pos (SpecNode.optRef name) ll; omega⟩
    rfl
  | argRef name =>
    intro ll toks b f _ hf
    obtain ⟨f', rfl⟩ : ∃ f', f = f' + 1 :=
      ⟨f - 1, by have := mfuel_pos (SpecNode.argRef name) ll; omega⟩
    rfl
  | empty =>
    intro ll toks b f _ hf
    obtain ⟨f', rfl⟩ : ∃ f', f = f' + 1 :=
      ⟨f - 1, by have := mfuel_pos SpecNode.empty ll; omega⟩
    rfl
  | seq x y ihx ihy =>
    intro ll toks b f hL hf
    obtain ⟨f', rfl⟩ : ∃ f', f = f' + 1 :=
      ⟨f - 1, by have := mfuel_pos (SpecNode.seq x y) ll; omega⟩
    have hmax1 := Nat.le_max_left (mfuel x ll) (mfuel y ll)
    have hmax2 := Nat.le_max_right (mfuel x ll) (mfuel y ll)
    have hfx : mfuel x ll ≤ f' := by simp [mfuel] at hf; omega
    have hfy : mfuel y ll ≤ f' := by simp [mfuel] at hf; omega
    rw [mtch_seq, mtch_seq, ihx ll toks b f' hL hfx]
    apply flatMap_ext
    intro q hq
    exact ihy ll q.1 q.2 f' (le_trans (mtch_len f' x toks b q hq) hL) hfy
  | alt x y ihx ihy =>
    intro ll toks b f hL hf
    obtain ⟨f', rfl⟩ : ∃ f', f = f' + 1 :=
      ⟨f - 1, by have := mfuel_pos (SpecNode.alt x y) ll; omega⟩
    have hmax1 := Nat.le_max_left (mfuel x ll) (mfuel y ll)
    have hmax2 := Nat.le_max_right (mfuel x ll) (mfuel y ll)
    have hfx : mfuel x ll ≤ f' := by simp [mfuel] at hf; omega
    have hfy : mfuel y ll ≤ f' := by simp [mfuel] at hf; omega
    rw [mtch_alt, mtch_alt, ihx ll toks b f' hL hfx, ihy ll toks b f' hL hfy]
  | opt x ihx =>
    intro ll toks b f hL hf
    obtain ⟨f', rfl⟩ : ∃ f', f = f' + 1 :=
      ⟨f - 1, by have := mfuel_pos (SpecNode.opt x) ll; omega⟩
    have hfx : mfuel x ll ≤ f' := by simp [mfuel] at hf; omega
    rw [mtch_opt, mtch_opt, ihx ll toks b f' hL hfx]
  | rep x ihx =>
    intro ll
    induction ll with
    | zero =>
      intro toks b f hL hf
      have htoks : toks = [] := List.length_eq_zero.mp (Nat.le_zero.mp hL)
      subst htoks
      obtain ⟨f', rfl⟩ : ∃ f', f = f' + 1 :=
        ⟨f - 1, by have := mfuel_pos (SpecNode.rep x) 0; omega⟩
      have hfx : mfuel x 0 ≤ f' := by
        have := repFuel_ge_body (mfuel x) 0
        simp [mfuel] at hf
        omega
      rw [mtch_rep, mtch_rep, ihx 0 [] b f' (by simp) hfx]
      apply flatMap_ext
      intro q hq
      have hlt : ¬ (q.1.length < ([] : List Tok).length) := by simp
      rw [if_neg hlt, if_neg hlt]
    | succ ll ihL =>
      intro toks b f hL hf
      obtain ⟨f', rfl⟩ : ∃ f', f = f' + 1 :=
        ⟨f - 1, by have := mfuel_pos (SpecNode.rep x) (ll + 1); omega⟩
      have hfx : mfuel x (ll + 1) ≤ f' := by
        have := repFuel_ge_body (mfuel x) (ll + 1)
        simp [mfuel] at hf
        omega
      have hfrep : mfuel (SpecNode.rep x) ll ≤ f' := by
        have := repFuel_ge_prev (mfuel x) ll
        simp [mfuel] at hf ⊢
        omega
      rw [mtch_rep, mtch_rep, ihx (ll + 1) toks b f' hL hfx]
      apply flatMap_ext
      intro q hq
      by_cases hlt : q.1.length < toks.length
      · rw [if_pos hlt, if_pos hlt]
        have hqlen : q.1.length ≤ ll := by
          have := mtch_len f' x toks b q hq
          omega
        rw [ihL q.1 q.2 f' hqlen hfrep]
      · rw [if_neg hlt, if_neg hlt]

/-- C8: the backtracking match terminates within a bounded budget: for every
node and finite token vector the whole search is already complete at fuel
mfuel — any larger budget returns the identical depth-first outcome list
(exhausting all alternatives is a bounded, normal termination), and every
outcome has consumed forward only (the search space of (state, token-index)
pairs is finite because each repeat-edge traversal consumes at least one
token). -/
theorem match_terminates_bounded (n : SpecNode) (toks : List Tok) (b : Binding) (f : Nat)
    (hf : mfuel n toks.length ≤ f) :
    mtch f n toks b = matchSearch n toks b
    ∧ ∀ p ∈ matchSearch n toks b, p.1.length ≤ toks.length := by
  constructor
  · unfold matchSearch
    induction f, hf using Nat.le_induction with
    | base => rfl
    | succ f hf ih =>
      rw [mtch_step n toks.length toks b f le_rfl hf]
      exact ih
  · intro p hp
    exact mtch_len (mfuel n toks.length) n toks b p hp

/-- Closed instance of bounded termination: the repetition of a positional
over a one-token input stabilises at its fuel bound. -/
theorem match_terminates_bounded_witness :
    mtch 7 (SpecNode.rep (SpecNode.argRef "SRC")) [Tok.pos "a"] []
        = matchSearch (SpecNode.rep (SpecNode.argRef "SRC")) [Tok.pos "a"] []
    ∧ ∀ p ∈ matchSearch (SpecNode.rep (SpecNode.argRef "SRC")) [Tok.pos "a"] [],
        p.1.length ≤ [Tok.pos "a"].length :=
  match_terminates_bounded (SpecNode.rep (SpecNode.argRef "SRC")) [Tok.pos "a"] [] 7 (by decide)
